import Mathlib

/-!
# Verification of the hockey HMM state-inference and labeling pipeline

Shallow embedding of `src/main.py` (lines 49-80): sorting the uploaded game
table by date, per-column standardization (sklearn `StandardScaler`), Gaussian
HMM fitting (hmmlearn, seeded), Viterbi state decoding (`model.predict`), and
the label resolver that maps fitted states onto the fixed vocabulary
`friendly_names` via `order = np.argsort(goal_diff)[::-1]`.

All numeric values are embedded as exact rationals (`ℚ`).  Standardized values
are kept in an exact symbolic representation (centered value plus column
variance) because the standard deviation is irrational in general; every claim
proved here depends only on that representation.
-/

namespace HockeyHMM

/-! ## Insertion sort

`np.argsort` with the default sort kind runs an insertion sort for arrays
shorter than 16 elements (always the case here, `K ≤ 5`), which is a stable
ascending sort.  `pandas.sort_values` likewise sorts rows by the key column.
We embed this as a plain insertion sort on lists. -/

/-- Insert `a` into `l` in front of the first element `b` with `le a b`. -/
def insertAsc (le : α → α → Bool) (a : α) : List α → List α
  | [] => [a]
  | b :: l => if le a b then a :: b :: l else b :: insertAsc le a l

/-- Stable insertion sort with respect to the boolean relation `le`. -/
def insSort (le : α → α → Bool) : List α → List α
  | [] => []
  | a :: l => insertAsc le a (insSort le l)

theorem insertAsc_perm (le : α → α → Bool) (a : α) :
    ∀ l : List α, (insertAsc le a l).Perm (a :: l) := by
  intro l
  induction l with
  | nil => simp [insertAsc]
  | cons b t ih =>
    simp only [insertAsc]
    split
    · exact List.Perm.refl _
    · exact (ih.cons b).trans (List.Perm.swap a b t)

theorem insSort_perm (le : α → α → Bool) : ∀ l : List α, (insSort le l).Perm l := by
  intro l
  induction l with
  | nil => exact List.Perm.refl _
  | cons a t ih => exact (insertAsc_perm le a (insSort le t)).trans (ih.cons a)

theorem insSort_length (le : α → α → Bool) (l : List α) :
    (insSort le l).length = l.length :=
  (insSort_perm le l).length_eq

theorem pairwise_insertAsc (le : α → α → Bool)
    (htot : ∀ a b, le a b = true ∨ le b a = true)
    (htrans : ∀ a b c, le a b = true → le b c = true → le a c = true)
    (a : α) :
    ∀ l : List α, l.Pairwise (fun x y => le x y = true) →
      (insertAsc le a l).Pairwise (fun x y => le x y = true) := by
  intro l
  induction l with
  | nil => intro _; simp [insertAsc]
  | cons b t ih =>
    intro hp
    rcases List.pairwise_cons.mp hp with ⟨hb, ht⟩
    simp only [insertAsc]
    split
    · next hab =>
      refine List.pairwise_cons.mpr ⟨?_, hp⟩
      intro x hx
      rcases List.mem_cons.mp hx with rfl | hx
      · exact hab
      · exact htrans a b x hab (hb x hx)
    · next hab =>
      have hba : le b a = true := by
        rcases htot a b with h | h
        · exact absurd h hab
        · exact h
      refine List.pairwise_cons.mpr ⟨?_, ih ht⟩
      intro x hx
      have hx' : x ∈ a :: t := (insertAsc_perm le a t).mem_iff.mp hx
      rcases List.mem_cons.mp hx' with rfl | hx'
      · exact hba
      · exact hb x hx'

theorem pairwise_insSort (le : α → α → Bool)
    (htot : ∀ a b, le a b = true ∨ le b a = true)
    (htrans : ∀ a b c, le a b = true → le b c = true → le a c = true) :
    ∀ l : List α, (insSort le l).Pairwise (fun x y => le x y = true) := by
  intro l
  induction l with
  | nil => simp [insSort]
  | cons a t ih => exact pairwise_insertAsc le htot htrans a _ ih

/-- Position of the first occurrence of `a` in a list (Python's notion of the
index a value has in `order`, used to read the rank off the `order` array). -/
def posOf [DecidableEq α] (a : α) : List α → ℕ
  | [] => 0
  | b :: l => if b = a then 0 else posOf a l + 1

theorem posOf_lt_length [DecidableEq α] (a : α) :
    ∀ l : List α, a ∈ l → posOf a l < l.length := by
  intro l
  induction l with
  | nil => intro h; cases h
  | cons b t ih =>
    intro h
    simp only [posOf]
    split
    · simp
    · next hba =>
      have ht : a ∈ t := by
        rcases List.mem_cons.mp h with rfl | h'
        · exact absurd rfl hba
        · exact h'
      simpa [List.length_cons] using Nat.succ_lt_succ (ih ht)

theorem get_posOf [DecidableEq α] (a : α) :
    ∀ (l : List α) (h : a ∈ l), l.get ⟨posOf a l, posOf_lt_length a l h⟩ = a := by
  intro l
  induction l with
  | nil => intro h; cases h
  | cons b t ih =>
    intro h
    by_cases hba : b = a
    · simp [posOf, hba]
    · have ht : a ∈ t := by
        rcases List.mem_cons.mp h with rfl | h'
        · exact absurd rfl hba
        · exact h'
      simp only [posOf, if_neg hba]
      simpa using ih ht

theorem posOf_get_of_nodup [DecidableEq α] :
    ∀ (l : List α), l.Nodup → ∀ i : Fin l.length, posOf (l.get i) l = i.val := by
  intro l
  induction l with
  | nil => intro _ i; exact absurd i.isLt (by simp)
  | cons b t ih =>
    intro hnd i
    rcases List.nodup_cons.mp hnd with ⟨hb, ht⟩
    match i with
    | ⟨0, _⟩ => simp [posOf]
    | ⟨j + 1, hj⟩ =>
      have hjlt : j < t.length := Nat.lt_of_succ_lt_succ hj
      have hget : (b :: t).get ⟨j + 1, hj⟩ = t.get ⟨j, hjlt⟩ := rfl
      rw [hget]
      have hne : b ≠ t.get ⟨j, hjlt⟩ := by
        intro hcontra
        exact hb (hcontra ▸ List.get_mem t j hjlt)
      simp only [posOf, if_neg hne]
      rw [ih ht ⟨j, hjlt⟩]

theorem posOf_inj_of_mem [DecidableEq α] (l : List α)
    {a b : α} (ha : a ∈ l) (hb : b ∈ l) (h : posOf a l = posOf b l) : a = b := by
  have hga := get_posOf a l ha
  have hgb := get_posOf b l hb
  rw [← hga, ← hgb]
  congr 1
  exact Fin.ext h

/-- In a list sorted by a boolean relation `le` that is antisymmetric, the
position of a member equals the number of elements strictly before it in the
relation.  This reads the rank of a state straight off the sorted `order`. -/
theorem posOf_eq_countP_of_pairwise [DecidableEq α] (le : α → α → Bool)
    (hanti : ∀ a b, le a b = true → le b a = true → a = b) :
    ∀ (l : List α) (s : α), s ∈ l → l.Pairwise (fun x y => le x y = true) →
      posOf s l = l.countP (fun t => !(t == s) && le t s) := by
  intro l
  induction l with
  | nil => intro s h; cases h
  | cons b t ih =>
    intro s hs hp
    rcases List.pairwise_cons.mp hp with ⟨hb, ht⟩
    by_cases hbs : b = s
    · subst hbs
      simp only [posOf, if_pos rfl]
      have hzero : t.countP (fun u => !(u == b) && le u b) = 0 := by
        rw [List.countP_eq_zero]
        intro u hu hcontra
        rw [Bool.and_eq_true] at hcontra
        have hne : u ≠ b := by simpa using hcontra.1
        exact hne (hanti u b hcontra.2 (hb u hu))
      rw [List.countP_cons]
      simp [hzero]
    · have hst : s ∈ t := by
        rcases List.mem_cons.mp hs with rfl | h'
        · exact absurd rfl hbs
        · exact h'
      simp only [posOf, if_neg hbs]
      rw [List.countP_cons]
      have hbcount : (fun u => !(u == s) && le u s) b = true := by
        simp only [Bool.and_eq_true, bne_iff_ne, ne_eq]
        exact ⟨by simpa using hbs, hb s hst⟩
      rw [ih s hst ht]
      simp [hbcount]

/-- Pointwise implication with one strict witness gives a strict `countP`
inequality. -/
theorem countP_lt_countP {p q : α → Bool}
    (x : α) (hpx : p x = false) (hqx : q x = true) :
    ∀ l : List α, (∀ a ∈ l, p a = true → q a = true) → x ∈ l →
      l.countP p < l.countP q := by
  intro l
  induction l with
  | nil => intro _ h; cases h
  | cons b t ih =>
    intro himp hx
    rw [List.countP_cons, List.countP_cons]
    by_cases hbx : b = x
    · subst hbx
      have hle : t.countP p ≤ t.countP q :=
        List.countP_mono_left (fun a ha hpa => himp a (List.mem_cons_of_mem b ha) hpa)
      simp only [hpx, hqx]
      simp only [Bool.false_eq_true, if_false, if_true]
      omega
    · have hxt : x ∈ t := by
        rcases List.mem_cons.mp hx with rfl | h'
        · exact absurd rfl hbx
        · exact h'
      have hlt : t.countP p < t.countP q :=
        ih (fun a ha hpa => himp a (List.mem_cons_of_mem b ha) hpa) hxt
      by_cases hpb : p b = true
      · have hqb : q b = true := himp b (List.mem_cons_self b t) hpb
        rw [hpb, hqb]; omega
      · rw [Bool.not_eq_true] at hpb
        rw [hpb]
        simp only [Bool.false_eq_true, if_false]
        split <;> omega

/-! ## Label resolver (source lines 62-70)

`means = model.means_`, `goal_diff = means[:, 0] - means[:, 1]`,
`order = np.argsort(goal_diff)[::-1]`,
`state_label_map = {old: friendly_names[i] for i, old in enumerate(order[:n_states])}`. -/

/-- The feature column names, `features` in the source (line 50). -/
def features : List String :=
  ["GoalsFor", "GoalsAgainst", "ShotsFor", "ShotsAgainst", "PenaltyMinutes", "FaceoffWinPct"]

/-- `friendly_names` (source line 68): the fixed ordered label vocabulary.
The strings use the same non-breaking hyphen (U+2011) as the source. -/
def friendly_names : List String :=
  ["Locked‑In", "Improving", "Fatigued", "Demoralized", "Overconfident"]

/-- `descriptions` (source lines 73-79): the coaching note attached to each
vocabulary name. -/
def descriptions : List (String × String) :=
  [("Locked‑In", "High offense/possession, low penalties. Maintain the plan."),
   ("Improving", "Upward trend in performance. Increase tactical intensity."),
   ("Fatigued", "Late‑game drop‑offs. Lighten practice load this week."),
   ("Demoralized", "High goals against & penalties. Reinforce fundamentals & morale."),
   ("Overconfident", "Good scoreline but sloppy fundamentals. Reinforce discipline.")]

/-- `idx_for = features.index('GoalsFor')` and
`idx_against = features.index('GoalsAgainst')` (source lines 63-64). -/
theorem features_indices :
    features.indexOf "GoalsFor" = 0 ∧ features.indexOf "GoalsAgainst" = 1 := by
  constructor <;> rfl

/-- `goal_diff = means[:, idx_for] - means[:, idx_against]` (source line 65):
columns 0 and 1 of the fitted mean matrix are GoalsFor and GoalsAgainst. -/
def goal_diff {K : ℕ} (means : Fin K → Fin 6 → ℚ) (s : Fin K) : ℚ :=
  means s 0 - means s 1

/-- Ascending lexicographic comparison on (score, state index).  A stable
ascending `np.argsort` (insertion sort for arrays shorter than 16 elements)
lists the states exactly in this order: by score, ties by original index
ascending. -/
def ascLexB {K : ℕ} (g : Fin K → ℚ) (a b : Fin K) : Bool :=
  decide (g a < g b) || (decide (g a = g b) && decide (a.val ≤ b.val))

/-- `order = np.argsort(goal_diff)[::-1]` (source line 66): the stable
ascending argsort of the scores, reversed. -/
def order {K : ℕ} (g : Fin K → ℚ) : List (Fin K) :=
  (insSort (ascLexB g) (List.finRange K)).reverse

/-- `state_label_map` (source line 69): state `old` receives
`friendly_names[i]` where `i` is the position of `old` in `order`.
`none` models the uncaught `IndexError` raised when the position reaches the
end of the vocabulary, which happens exactly when `K > 5`.  (`order[:n_states]`
is the whole of `order`, which already has length `n_states`.) -/
def state_label_map {K : ℕ} (means : Fin K → Fin 6 → ℚ) (s : Fin K) : Option String :=
  friendly_names.get? (posOf s (order (goal_diff means)))

theorem ascLexB_total {K : ℕ} (g : Fin K → ℚ) (a b : Fin K) :
    ascLexB g a b = true ∨ ascLexB g b a = true := by
  unfold ascLexB
  rcases lt_trichotomy (g a) (g b) with h | h | h
  · left; simp [h]
  · rcases Nat.le_total a.val b.val with h' | h'
    · left; simp [h, h']
    · right; simp [h.symm, h']
  · right; simp [h]

theorem ascLexB_trans {K : ℕ} (g : Fin K → ℚ) (a b c : Fin K)
    (hab : ascLexB g a b = true) (hbc : ascLexB g b c = true) :
    ascLexB g a c = true := by
  unfold ascLexB at *
  simp only [Bool.or_eq_true, Bool.and_eq_true, decide_eq_true_eq] at *
  rcases hab with h1 | ⟨h1, h1'⟩ <;> rcases hbc with h2 | ⟨h2, h2'⟩
  · exact Or.inl (h1.trans h2)
  · exact Or.inl (h2 ▸ h1)
  · exact Or.inl (h1 ▸ h2)
  · exact Or.inr ⟨h1.trans h2, h1'.trans h2'⟩

theorem ascLexB_antisymm {K : ℕ} (g : Fin K → ℚ) (a b : Fin K)
    (hab : ascLexB g a b = true) (hba : ascLexB g b a = true) : a = b := by
  unfold ascLexB at *
  simp only [Bool.or_eq_true, Bool.and_eq_true, decide_eq_true_eq] at *
  rcases hab with h1 | ⟨h1, h1'⟩ <;> rcases hba with h2 | ⟨h2, h2'⟩
  · exact absurd (h1.trans h2) (lt_irrefl _)
  · exact absurd h1 (h2 ▸ lt_irrefl _)
  · exact absurd h2 (h1 ▸ lt_irrefl _)
  · exact Fin.ext (Nat.le_antisymm h1' h2')

theorem order_perm {K : ℕ} (g : Fin K → ℚ) : (order g).Perm (List.finRange K) :=
  (List.reverse_perm _).trans (insSort_perm _ _)

theorem order_length {K : ℕ} (g : Fin K → ℚ) : (order g).length = K := by
  rw [(order_perm g).length_eq, List.length_finRange]

theorem mem_order {K : ℕ} (g : Fin K → ℚ) (s : Fin K) : s ∈ order g :=
  (order_perm g).mem_iff.mpr (List.mem_finRange s)

theorem order_nodup {K : ℕ} (g : Fin K → ℚ) : (order g).Nodup :=
  (order_perm g).nodup_iff.mpr (List.nodup_finRange K)

/-- `order` lists the states in descending lexicographic (score, index) order:
descending score, ties broken by original index descending (the reversal of the
stable ascending argsort flips the ascending-index tie order). -/
theorem pairwise_order {K : ℕ} (g : Fin K → ℚ) :
    (order g).Pairwise (fun a b => ascLexB g b a = true) := by
  unfold order
  rw [List.pairwise_reverse]
  exact pairwise_insSort (ascLexB g) (ascLexB_total g)
    (fun a b c => ascLexB_trans g a b c) (List.finRange K)

/-- The rank of state `s` (its position in `order`) equals the number of states
strictly before it in the descending lexicographic order. -/
theorem rank_eq_countP {K : ℕ} (g : Fin K → ℚ) (s : Fin K) :
    posOf s (order g) =
      (List.finRange K).countP (fun t => !(t == s) && ascLexB g s t) := by
  have h := posOf_eq_countP_of_pairwise (fun a b => ascLexB g b a)
    (fun a b hab hba => (ascLexB_antisymm g b a hab hba).symm)
    (order g) s (mem_order g s) (pairwise_order g)
  rw [h]
  exact (order_perm g).countP_eq _

/-- With pairwise-distinct scores, the rank of a state is the number of states
with strictly larger score. -/
theorem rank_eq_countP_of_injective {K : ℕ} (g : Fin K → ℚ)
    (hinj : Function.Injective g) (s : Fin K) :
    posOf s (order g) = (List.finRange K).countP (fun t => decide (g s < g t)) := by
  rw [rank_eq_countP]
  apply List.countP_congr
  intro t _
  simp only [Bool.and_eq_true, Bool.or_eq_true, bne_iff_ne, ne_eq,
    decide_eq_true_eq, ascLexB]
  constructor
  · rintro ⟨hne, h | ⟨heq, _⟩⟩
    · exact h
    · exact absurd (hinj heq.symm) (by simpa using hne)
  · intro h
    have hne : t ≠ s := by
      intro hcontra
      rw [hcontra] at h
      exact lt_irrefl _ h
    exact ⟨by simpa using hne, Or.inl h⟩

/-! ## Viterbi decoding

`df['State'] = model.predict(X)` (source line 59).  hmmlearn's `predict` calls
`decode` with the default `algorithm="viterbi"`: it first computes the matrix
of per-frame emission likelihoods and then runs the Viterbi dynamic program
(with first-index `argmax` tie-breaking) over initial, transition and emission
scores.  We embed the same dynamic program over exact rationals, carrying the
best path to each state instead of backpointers (the two formulations produce
the same output). -/

/-- Score of a path continuation: starting from state `prev`, consume one
emission-likelihood vector and one state per step, multiplying transition and
emission likelihoods. -/
def pathSegScore {K : ℕ} (A : Fin K → Fin K → ℚ) :
    Fin K → List (Fin K → ℚ) → List (Fin K) → ℚ
  | prev, e :: es, s :: ss => A prev s * e s * pathSegScore A s es ss
  | _, _, _ => 1

/-- Joint likelihood of a full state path `ss` for the emission-likelihood
vectors `es`: initial probability times emission, then transitions. -/
def pathScore {K : ℕ} (pi0 : Fin K → ℚ) (A : Fin K → Fin K → ℚ) :
    List (Fin K → ℚ) → List (Fin K) → ℚ
  | e :: es, s :: ss => pi0 s * e s * pathSegScore A s es ss
  | _, _ => 1

/-- First index attaining the running maximum of `f` (like `np.argmax`). -/
def argmaxAcc {K : ℕ} (f : Fin K → ℚ) : List (Fin K) → Fin K → Fin K
  | [], best => best
  | x :: xs, best => argmaxAcc f xs (if f best < f x then x else best)

/-- `np.argmax` over all states. -/
def argmaxFin {K : ℕ} (f : Fin K → ℚ) (h : 0 < K) : Fin K :=
  argmaxAcc f (List.finRange K) ⟨0, h⟩

/-- First row of the Viterbi table: best (only) length-1 path to each state. -/
def vitInit {K : ℕ} (pi0 : Fin K → ℚ) (e : Fin K → ℚ) :
    Fin K → ℚ × List (Fin K) :=
  fun s => (pi0 s * e s, [s])

/-- One Viterbi step: for each state `s`, extend the best predecessor path.
Stored paths are reversed (head = most recent state). -/
def vitStep {K : ℕ} (A : Fin K → Fin K → ℚ) (h : 0 < K)
    (tbl : Fin K → ℚ × List (Fin K)) (e : Fin K → ℚ) :
    Fin K → ℚ × List (Fin K) :=
  fun s =>
    let b := argmaxFin (fun u => (tbl u).1 * A u s) h
    ((tbl b).1 * A b s * e s, s :: (tbl b).2)

/-- The Viterbi decoder: most probable state sequence, one state per input
frame, in input order. -/
def viterbi {K : ℕ} (pi0 : Fin K → ℚ) (A : Fin K → Fin K → ℚ) (h : 0 < K) :
    List (Fin K → ℚ) → List (Fin K)
  | [] => []
  | e :: es =>
    let tbl := es.foldl (vitStep A h) (vitInit pi0 e)
    (tbl (argmaxFin (fun s => (tbl s).1) h)).2.reverse

theorem argmaxAcc_le {K : ℕ} (f : Fin K → ℚ) :
    ∀ (xs : List (Fin K)) (best : Fin K),
      f best ≤ f (argmaxAcc f xs best) ∧
        ∀ x ∈ xs, f x ≤ f (argmaxAcc f xs best) := by
  intro xs
  induction xs with
  | nil => intro best; exact ⟨le_refl _, by simp⟩
  | cons x xs ih =>
    intro best
    simp only [argmaxAcc]
    constructor
    · rcases ih (if f best < f x then x else best) with ⟨h1, _⟩
      refine le_trans ?_ h1
      split
      · next hlt => exact le_of_lt hlt
      · exact le_refl _
    · intro y hy
      rcases List.mem_cons.mp hy with rfl | hy'
      · rcases ih (if f best < f y then y else best) with ⟨h1, _⟩
        refine le_trans ?_ h1
        split
        · exact le_refl _
        · next hnlt => exact le_of_not_lt hnlt
      · exact (ih _).2 y hy'

theorem argmaxFin_le {K : ℕ} (f : Fin K → ℚ) (h : 0 < K) (s : Fin K) :
    f s ≤ f (argmaxFin f h) :=
  (argmaxAcc_le f (List.finRange K) ⟨0, h⟩).2 s (List.mem_finRange s)

/-- Appending one step to a nonempty path multiplies its score by the
transition from its last state and the new emission. -/
theorem pathSegScore_snoc {K : ℕ} (A : Fin K → Fin K → ℚ) (e : Fin K → ℚ)
    (z : Fin K) :
    ∀ (p : List (Fin K)) (es : List (Fin K → ℚ)) (prev b : Fin K),
      p.length = es.length → (prev :: p).getLast? = some b →
      pathSegScore A prev (es ++ [e]) (p ++ [z]) =
        pathSegScore A prev es p * (A b z * e z) := by
  intro p
  induction p with
  | nil =>
    intro es prev b hlen hb
    have hes : es = [] := List.eq_nil_of_length_eq_zero hlen.symm
    subst hes
    simp only [List.getLast?_singleton, Option.some.injEq] at hb
    subst hb
    simp only [List.nil_append, pathSegScore]
    ring
  | cons x p' ih =>
    intro es prev b hlen hb
    match es with
    | [] => exact absurd hlen (by simp)
    | e1 :: es' =>
      have hlen' : p'.length = es'.length := by simpa using hlen
      have hb' : (x :: p').getLast? = some b := by
        rw [List.getLast?_cons_cons] at hb
        exact hb
      simp only [List.cons_append, pathSegScore, List.append_eq]
      rw [ih es' x b hlen' hb']
      ring

/-- Appending one step to a nonempty path multiplies its full score by the
transition from its last state and the new emission. -/
theorem pathScore_snoc {K : ℕ} (pi0 : Fin K → ℚ) (A : Fin K → Fin K → ℚ)
    (e : Fin K → ℚ) (z : Fin K) :
    ∀ (p : List (Fin K)) (es : List (Fin K → ℚ)) (b : Fin K),
      p.length = es.length → p.getLast? = some b →
      pathScore pi0 A (es ++ [e]) (p ++ [z]) =
        pathScore pi0 A es p * (A b z * e z) := by
  intro p
  match p with
  | [] => intro es b _ hb; simp at hb
  | x :: p' =>
    intro es b hlen hb
    match es with
    | [] => exact absurd hlen (by simp)
    | e1 :: es' =>
      have hlen' : p'.length = es'.length := by simpa using hlen
      simp only [List.cons_append, pathScore, List.append_eq]
      rw [pathSegScore_snoc A e z p' es' x b hlen' hb]
      ring

/-- Invariant of the Viterbi table after consuming the emission vectors `es`:
for every state `s`, the stored (reversed) path ends at `s`, covers all frames
so far, realizes the stored score, and the stored score dominates every path of
the same length ending at `s`. -/
def VitInv {K : ℕ} (pi0 : Fin K → ℚ) (A : Fin K → Fin K → ℚ)
    (es : List (Fin K → ℚ)) (tbl : Fin K → ℚ × List (Fin K)) : Prop :=
  ∀ s : Fin K,
    (tbl s).2.head? = some s ∧
    (tbl s).2.length = es.length ∧
    pathScore pi0 A es (tbl s).2.reverse = (tbl s).1 ∧
    ∀ p : List (Fin K), p.length = es.length → p.getLast? = some s →
      pathScore pi0 A es p ≤ (tbl s).1

theorem vitInit_inv {K : ℕ} (pi0 : Fin K → ℚ) (A : Fin K → Fin K → ℚ)
    (e : Fin K → ℚ) : VitInv pi0 A [e] (vitInit pi0 e) := by
  intro s
  refine ⟨rfl, rfl, ?_, ?_⟩
  · simp only [vitInit, List.reverse_singleton, pathScore, pathSegScore]
    ring
  · intro p hlen hlast
    match p with
    | [x] =>
      simp only [List.getLast?_singleton, Option.some.injEq] at hlast
      subst hlast
      simp only [pathScore, pathSegScore, vitInit]
      exact le_of_eq (by ring)

theorem vitStep_inv {K : ℕ} (pi0 : Fin K → ℚ) (A : Fin K → Fin K → ℚ)
    (h : 0 < K) (es : List (Fin K → ℚ)) (tbl : Fin K → ℚ × List (Fin K))
    (e : Fin K → ℚ) (hes : es ≠ [])
    (hA : ∀ a b, 0 ≤ A a b) (he : ∀ s, 0 ≤ e s)
    (hinv : VitInv pi0 A es tbl) :
    VitInv pi0 A (es ++ [e]) (vitStep A h tbl e) := by
  intro s
  set b := argmaxFin (fun u => (tbl u).1 * A u s) h with hbdef
  rcases hinv b with ⟨hbhead, hblen, hbscore, _⟩
  have hbne : (tbl b).2 ≠ [] := by
    intro hcontra
    rw [hcontra] at hbhead
    simp at hbhead
  have hrevlast : (tbl b).2.reverse.getLast? = some b := by
    rw [List.getLast?_reverse]
    exact hbhead
  have hrevlen : (tbl b).2.reverse.length = es.length := by
    rw [List.length_reverse]; exact hblen
  refine ⟨rfl, ?_, ?_, ?_⟩
  · simp only [vitStep, List.length_cons, List.length_append]
    simpa using hblen
  · show pathScore pi0 A (es ++ [e]) (s :: (tbl b).2).reverse
        = (tbl b).1 * A b s * e s
    rw [List.reverse_cons]
    rw [pathScore_snoc pi0 A e s (tbl b).2.reverse es b hrevlen hrevlast]
    rw [hbscore]
    ring
  · intro p hlen hlast
    show pathScore pi0 A (es ++ [e]) p ≤ (tbl b).1 * A b s * e s
    have hpne : p ≠ [] := by
      intro hcontra
      subst hcontra
      simp only [List.length_nil, List.length_append, List.length_singleton] at hlen
      omega
    obtain ⟨q, z, rfl⟩ : ∃ q z, p = q ++ [z] := by
      refine ⟨p.dropLast, p.getLast hpne, ?_⟩
      exact (List.dropLast_append_getLast hpne).symm
    have hz : z = s := by
      rw [List.getLast?_concat] at hlast
      exact Option.some.inj hlast
    rw [hz]
    have hqlen : q.length = es.length := by
      rw [List.length_append, List.length_singleton] at hlen
      rw [List.length_append, List.length_singleton] at hlen
      omega
    have hqne : q ≠ [] := by
      intro hcontra
      subst hcontra
      simp only [List.length_nil] at hqlen
      exact hes (List.eq_nil_of_length_eq_zero hqlen.symm)
    set b' := q.getLast hqne with hb'def
    have hqlast : q.getLast? = some b' := List.getLast?_eq_getLast q hqne
    rcases hinv b' with ⟨_, _, _, hbest'⟩
    rw [pathScore_snoc pi0 A e s q es b' hqlen hqlast]
    have h1 : pathScore pi0 A es q ≤ (tbl b').1 := hbest' q hqlen hqlast
    have h2 : pathScore pi0 A es q * (A b' s * e s) ≤ (tbl b').1 * (A b' s * e s) :=
      mul_le_mul_of_nonneg_right h1 (mul_nonneg (hA b' s) (he s))
    refine le_trans h2 ?_
    have h3 : (tbl b').1 * A b' s ≤ (tbl b).1 * A b s :=
      argmaxFin_le (fun u => (tbl u).1 * A u s) h b'
    calc (tbl b').1 * (A b' s * e s) = (tbl b').1 * A b' s * e s := by ring
      _ ≤ (tbl b).1 * A b s * e s := mul_le_mul_of_nonneg_right h3 (he s)

theorem vitFold_inv {K : ℕ} (pi0 : Fin K → ℚ) (A : Fin K → Fin K → ℚ)
    (h : 0 < K) (hA : ∀ a b, 0 ≤ A a b) :
    ∀ (rest : List (Fin K → ℚ)) (es0 : List (Fin K → ℚ))
      (tbl : Fin K → ℚ × List (Fin K)),
      es0 ≠ [] → (∀ e ∈ rest, ∀ s, 0 ≤ e s) → VitInv pi0 A es0 tbl →
      VitInv pi0 A (es0 ++ rest) (rest.foldl (vitStep A h) tbl) := by
  intro rest
  induction rest with
  | nil => intro es0 tbl hne _ hinv; simpa using hinv
  | cons e rest' ih =>
    intro es0 tbl hne hnn hinv
    have hstep : VitInv pi0 A (es0 ++ [e]) (vitStep A h tbl e) :=
      vitStep_inv pi0 A h es0 tbl e hne hA
        (fun s => hnn e (List.mem_cons_self e rest') s) hinv
    have hres := ih (es0 ++ [e]) (vitStep A h tbl e) (by simp)
      (fun e' he' s => hnn e' (List.mem_cons_of_mem e he') s) hstep
    simpa [List.append_assoc] using hres

/-- C5: the State Decoder (`model.predict`, hmmlearn's default
`algorithm="viterbi"`) computes the Viterbi path: among all state sequences of
the same length as the observation sequence it maximizes the joint likelihood
(initial, transition and emission scores together — not per-point independent
MAP decoding), and it outputs exactly one state index per input row, in input
order. -/
theorem c5_viterbi_decoder {K : ℕ} (pi0 : Fin K → ℚ) (A : Fin K → Fin K → ℚ)
    (h : 0 < K) (es : List (Fin K → ℚ))
    (hA : ∀ a b, 0 ≤ A a b) (he : ∀ e ∈ es, ∀ s, 0 ≤ e s) :
    (viterbi pi0 A h es).length = es.length ∧
    ∀ p : List (Fin K), p.length = es.length →
      pathScore pi0 A es p ≤ pathScore pi0 A es (viterbi pi0 A h es) := by
  match es with
  | [] =>
    refine ⟨rfl, ?_⟩
    intro p hlen
    rw [List.eq_nil_of_length_eq_zero hlen]
    exact le_refl _
  | e :: rest =>
    have hnn : ∀ e' ∈ rest, ∀ s, 0 ≤ e' s :=
      fun e' he' s => he e' (List.mem_cons_of_mem e he') s
    have hinv : VitInv pi0 A ([e] ++ rest)
        (rest.foldl (vitStep A h) (vitInit pi0 e)) :=
      vitFold_inv pi0 A h hA rest [e] (vitInit pi0 e) (by simp) hnn
        (vitInit_inv pi0 A e)
    set tbl := rest.foldl (vitStep A h) (vitInit pi0 e) with htbl
    set best := argmaxFin (fun s => (tbl s).1) h with hbest
    have hdef : viterbi pi0 A h (e :: rest) = (tbl best).2.reverse := rfl
    have hcons : [e] ++ rest = e :: rest := rfl
    rw [hcons] at hinv
    rcases hinv best with ⟨_, hblen, hbscore, _⟩
    constructor
    · rw [hdef, List.length_reverse, hblen]
    · intro p hlen
      have hpne : p ≠ [] := by
        intro hcontra
        subst hcontra
        simp at hlen
      have hlast : p.getLast? = some (p.getLast hpne) :=
        List.getLast?_eq_getLast p hpne
      rcases hinv (p.getLast hpne) with ⟨_, _, _, hopt⟩
      have h1 : pathScore pi0 A (e :: rest) p ≤ (tbl (p.getLast hpne)).1 :=
        hopt p hlen hlast
      have h2 : (tbl (p.getLast hpne)).1 ≤ (tbl best).1 :=
        argmaxFin_le (fun s => (tbl s).1) h (p.getLast hpne)
      rw [hdef, hbscore]
      exact le_trans h1 h2

/-! ## Data model and pipeline (source lines 49-80)

`df = pd.read_csv(...).sort_values('GameDate')`, `X = StandardScaler().fit_transform(...)`,
`model = hmm.GaussianHMM(...); model.fit(X); df['State'] = model.predict(X)`,
then the label resolver and `df['CoachNote'] = df['StateLabel'].map(descriptions)`. -/

/-- One row of the uploaded CSV.  Dates are embedded as integers (day
ordinals): only their ordering matters to the pipeline. -/
structure GameRecord where
  gameDate : Int
  opponent : String
  venue : String
  goalsFor : ℚ
  goalsAgainst : ℚ
  shotsFor : ℚ
  shotsAgainst : ℚ
  penaltyMinutes : ℚ
  faceoffWinPct : ℚ
deriving DecidableEq

/-- `df[features].values`: the feature vector of a row, in the column order of
`features` (GoalsFor, GoalsAgainst, ShotsFor, ShotsAgainst, PenaltyMinutes,
FaceoffWinPct). -/
def featVec (r : GameRecord) : Fin 6 → ℚ :=
  ![r.goalsFor, r.goalsAgainst, r.shotsFor, r.shotsAgainst,
    r.penaltyMinutes, r.faceoffWinPct]

/-- `df.sort_values('GameDate')` (source line 49).  Embedded as a stable sort;
pandas' default quicksort is unstable, but every comparison sort agrees with
this one whenever the dates are pairwise distinct, which is the only situation
in which the sorted table is well-defined. -/
def sortByDate (rows : List GameRecord) : List GameRecord :=
  insSort (fun a b => decide (a.gameDate ≤ b.gameDate)) rows

/-- Column mean, as computed by `StandardScaler` (`X.mean(axis=0)`). -/
def colMean (xs : List ℚ) : ℚ := xs.sum / (xs.length : ℚ)

/-- Column population variance (`X.var(axis=0)`, `ddof=0`), as computed by
`StandardScaler`. -/
def colVar (xs : List ℚ) : ℚ :=
  ((xs.map (fun x => (x - colMean xs) ^ 2)).sum) / (xs.length : ℚ)

/-- Exact representation of one standardized matrix entry.  `StandardScaler`
divides the centered value by `sqrt colVariance`, after replacing a zero
standard deviation by 1 (`sklearn.preprocessing._data._handle_zeros_in_scale`);
since the square root is irrational in general we carry the centered value and
the column variance exactly instead of the quotient.  A zero-variance column
therefore standardizes to entries `⟨0, 0⟩`, i.e. the exact value 0 — never NaN
or Inf, and never an error. -/
structure StdVal where
  centered : ℚ
  colVariance : ℚ
deriving DecidableEq

/-- `X = StandardScaler().fit_transform(df[features].values)` (source line 51):
per-column standardization of the feature matrix.  `StandardScaler` has no
failure path on finite numeric input: zero-variance columns are centered to
exact zeros with the divisor replaced by 1. -/
def fitTransform (rows : List (Fin 6 → ℚ)) : List (Fin 6 → StdVal) :=
  rows.map (fun r j =>
    ⟨r j - colMean (rows.map (fun r' => r' j)),
     colVar (rows.map (fun r' => r' j))⟩)

/-- The abstract error kinds of the specification's error taxonomy.  The
embedded pipeline can only ever produce `fitError` (fitting failed) and
`configError` (label vocabulary exhausted): there is no code path producing
`inputFormatError` or `invalidInputError`. -/
inductive PipelineError where
  | inputFormatError
  | invalidInputError
  | fitError
  | configError
deriving DecidableEq

/-- The parameters of a fitted Gaussian HMM that the rest of the pipeline
reads: per-state mean vectors (`model.means_`), initial distribution and
transition matrix. -/
structure FittedModel (K : ℕ) where
  means : Fin K → Fin 6 → ℚ
  start : Fin K → ℚ
  trans : Fin K → Fin K → ℚ

/-- Modelled from the spec: `hmm.GaussianHMM(...).fit(X)` (source lines 54-58)
lives in the external hmmlearn library, whose floating-point EM iteration is
not reproduced here.  Faithful to the spec's contract, the modelled fitter is
a deterministic function of the feature matrix, `K`, the seed and the
iteration cap, and fails (`FitError`) exactly when the sequence is shorter
than `K` (hmmlearn's k-means initialization raises for `n_samples <
n_clusters`).  On success the modelled parameters are a deterministic
placeholder: means read from evenly spaced rows of `X`, uniform initial and
transition probabilities. -/
def fitHMM (K : ℕ) (X : List (Fin 6 → StdVal)) (seed nIter : ℕ) :
    Except PipelineError (FittedModel K) :=
  if X.length < K then .error .fitError
  else .ok
    { means := fun s j =>
        ((X.get? (s.val * X.length / K)).map (fun row => (row j).centered)).getD 0
    , start := fun _ => 1 / (K : ℚ)
    , trans := fun _ _ => 1 / (K : ℚ) }

/-- Modelled from the spec: the per-frame emission score of state `s` for the
standardized observation `x`, a positive rational surrogate for the Gaussian
density (monotone decreasing in the distance between `x` and the state mean);
the exact Gaussian density is irrational. -/
def emitScore {K : ℕ} (m : FittedModel K) (x : Fin 6 → StdVal) (s : Fin K) : ℚ :=
  1 / (1 + ((List.finRange 6).map (fun j => ((x j).centered - m.means s j) ^ 2)).sum)

/-- Mapping a fallible lookup over a list, failing as soon as one element
fails: the embedding of applying a Python dict lookup to every row (an absent
key raises and aborts the run). -/
def mapOpt (f : α → Option β) : List α → Option (List β)
  | [] => some []
  | a :: l =>
    match f a, mapOpt f l with
    | some b, some bs => some (b :: bs)
    | _, _ => none

/-- One fully annotated output row: the record together with its decoded
numeric state (`df['State']`), resolved label (`df['StateLabel']`) and
coaching note (`df['CoachNote']`). -/
structure AnnotatedGame where
  record : GameRecord
  state : ℕ
  stateLabel : String
  coachNote : String
deriving DecidableEq

/-- The whole state-inference and labeling pipeline of `src/main.py` (lines
49-80) as one function: sort by date, standardize, fit (seeded), Viterbi
decode, resolve labels, annotate.  Any failure aborts the run with an error
and no partial result.  `seed` and `nIter` mirror `random_state=42` and
`n_iter=100`. -/
def runPipeline (rows : List GameRecord) (K seed nIter : ℕ) :
    Except PipelineError (List AnnotatedGame) :=
  let df := sortByDate rows
  let X := fitTransform (df.map featVec)
  if hK : 0 < K then
    match fitHMM K X seed nIter with
    | .error err => .error err
    | .ok m =>
      let states := viterbi m.start m.trans hK (X.map (emitScore m))
      if 5 < K then .error .configError
      else
        match mapOpt (fun s => state_label_map m.means s) states with
        | none => .error .configError
        | some labels =>
          match mapOpt (fun l => descriptions.lookup l) labels with
          | none => .error .configError
          | some notes =>
            .ok (List.zipWith
              (fun rs ln =>
                { record := rs.1, state := rs.2.val
                , stateLabel := ln.1, coachNote := ln.2 })
              (df.zip states) (labels.zip notes))
  else .error .fitError

/-! ## Support lemmas about the label resolver and the pipeline -/

theorem rank_lt_K {K : ℕ} (g : Fin K → ℚ) (s : Fin K) :
    posOf s (order g) < K := by
  have h := posOf_lt_length s (order g) (mem_order g s)
  rwa [order_length] at h

theorem state_label_map_eq_some {K : ℕ} (means : Fin K → Fin 6 → ℚ)
    (hK : K ≤ 5) (s : Fin K) :
    ∃ l, state_label_map means s = some l := by
  unfold state_label_map
  have hlt : posOf s (order (goal_diff means)) < friendly_names.length := by
    have h5 : friendly_names.length = 5 := rfl
    rw [h5]
    exact lt_of_lt_of_le (rank_lt_K (goal_diff means) s) hK
  exact ⟨_, List.get?_eq_get hlt⟩

theorem state_label_map_mem {K : ℕ} (means : Fin K → Fin 6 → ℚ) (s : Fin K)
    {l : String} (h : state_label_map means s = some l) : l ∈ friendly_names :=
  List.get?_mem h

/-- Every vocabulary name has a nonempty coaching note in `descriptions`. -/
theorem descriptions_complete :
    ∀ l ∈ friendly_names, ∃ note, descriptions.lookup l = some note ∧ note ≠ "" := by
  decide

theorem mapOpt_eq_some {α β : Type} (f : α → Option β) :
    ∀ l : List α, (∀ a ∈ l, (f a).isSome) →
      ∃ ys, mapOpt f l = some ys ∧ ys.length = l.length ∧
        ∀ y ∈ ys, ∃ a ∈ l, f a = some y := by
  intro l
  induction l with
  | nil => intro _; exact ⟨[], rfl, rfl, by simp⟩
  | cons a t ih =>
    intro h
    have ha : (f a).isSome := h a (List.mem_cons_self a t)
    rcases Option.isSome_iff_exists.mp ha with ⟨b, hb⟩
    rcases ih (fun x hx => h x (List.mem_cons_of_mem a hx)) with ⟨ys, hys, hlen, hmem⟩
    refine ⟨b :: ys, ?_, by simp [hlen], ?_⟩
    · simp only [mapOpt, hb, hys]
    · intro y hy
      rcases List.mem_cons.mp hy with rfl | hy'
      · exact ⟨a, List.mem_cons_self a t, hb⟩
      · rcases hmem y hy' with ⟨x, hx, hfx⟩
        exact ⟨x, List.mem_cons_of_mem a hx, hfx⟩

theorem fitTransform_length (rows : List (Fin 6 → ℚ)) :
    (fitTransform rows).length = rows.length := by
  simp [fitTransform]

theorem sortByDate_length (rows : List GameRecord) :
    (sortByDate rows).length = rows.length :=
  insSort_length _ rows

theorem fitHMM_error_eq {K : ℕ} (X : List (Fin 6 → StdVal)) (seed nIter : ℕ)
    {e : PipelineError} (h : fitHMM K X seed nIter = .error e) :
    e = .fitError ∧ X.length < K := by
  unfold fitHMM at h
  by_cases hlt : X.length < K
  · rw [if_pos hlt] at h
    exact ⟨(Except.error.inj h).symm, hlt⟩
  · rw [if_neg hlt] at h
    cases h

theorem vitFold_length {K : ℕ} (A : Fin K → Fin K → ℚ) (h : 0 < K) :
    ∀ (rest : List (Fin K → ℚ)) (tbl : Fin K → ℚ × List (Fin K)) (n : ℕ),
      (∀ s, (tbl s).2.length = n) →
      ∀ s, ((rest.foldl (vitStep A h) tbl) s).2.length = n + rest.length := by
  intro rest
  induction rest with
  | nil => intro tbl n htbl s; simpa using htbl s
  | cons e rest' ih =>
    intro tbl n htbl s
    have hstep : ∀ s, ((vitStep A h tbl e) s).2.length = n + 1 := by
      intro u
      simp only [vitStep, List.length_cons]
      rw [htbl]
    have := ih (vitStep A h tbl e) (n + 1) hstep s
    rw [List.foldl_cons, this, List.length_cons]
    omega

/-- The decoder emits exactly one state per input frame. -/
theorem viterbi_length {K : ℕ} (pi0 : Fin K → ℚ) (A : Fin K → Fin K → ℚ)
    (h : 0 < K) (es : List (Fin K → ℚ)) :
    (viterbi pi0 A h es).length = es.length := by
  match es with
  | [] => rfl
  | e :: rest =>
    have hinit : ∀ s, ((vitInit pi0 e) s).2.length = 1 := fun _ => rfl
    have hfold := vitFold_length A h rest (vitInit pi0 e) 1 hinit
    show ((rest.foldl (vitStep A h) (vitInit pi0 e))
        (argmaxFin (fun s => ((rest.foldl (vitStep A h) (vitInit pi0 e)) s).1) h)).2.reverse.length
      = (e :: rest).length
    rw [List.length_reverse, hfold, List.length_cons]
    omega

/-- The pipeline succeeds whenever `0 < K ≤ 5` and the sequence is long
enough; in particular it returns a full annotated row list, one per input
record. -/
theorem runPipeline_ok (rows : List GameRecord) (K seed nIter : ℕ)
    (hK : 0 < K) (hK5 : K ≤ 5) (hlen : K ≤ rows.length) :
    ∃ out, runPipeline rows K seed nIter = .ok out ∧ out.length = rows.length := by
  unfold runPipeline
  rw [dif_pos hK]
  have hXlen : (fitTransform ((sortByDate rows).map featVec)).length = rows.length := by
    rw [fitTransform_length, List.length_map, sortByDate_length]
  cases hfit : fitHMM K (fitTransform ((sortByDate rows).map featVec)) seed nIter with
  | error err =>
    rcases fitHMM_error_eq _ _ _ hfit with ⟨_, hcontra⟩
    rw [hXlen] at hcontra
    omega
  | ok m =>
    simp only [hfit]
    rw [if_neg (by omega : ¬ 5 < K)]
    set states := viterbi m.start m.trans hK
      ((fitTransform ((sortByDate rows).map featVec)).map (emitScore m)) with hstates
    have hstateslen : states.length = rows.length := by
      rw [hstates, viterbi_length, List.length_map, hXlen]
    have hallsome : ∀ s ∈ states, ((fun u => state_label_map m.means u) s).isSome := by
      intro s _
      rcases state_label_map_eq_some m.means hK5 s with ⟨l, hl⟩
      simp [hl]
    rcases mapOpt_eq_some (fun u => state_label_map m.means u) states hallsome with
      ⟨labels, hlabels, hlabelslen, hlabelsmem⟩
    have hnotesome : ∀ l ∈ labels, ((fun u => descriptions.lookup u) l).isSome := by
      intro l hl
      rcases hlabelsmem l hl with ⟨s, _, hs⟩
      have hmem : l ∈ friendly_names := state_label_map_mem m.means s hs
      rcases descriptions_complete l hmem with ⟨note, hnote, _⟩
      simp [hnote]
    rcases mapOpt_eq_some (fun u => descriptions.lookup u) labels hnotesome with
      ⟨notes, hnotes, hnoteslen, _⟩
    simp only [hlabels, hnotes]
    refine ⟨_, rfl, ?_⟩
    rw [List.length_zipWith, List.length_zip, List.length_zip]
    rw [hstateslen, hlabelslen, hnoteslen, hstateslen, hlabelslen, hstateslen]
    rw [sortByDate_length]
    simp [min_self]

/-- With pairwise-distinct scores, each state's label is the vocabulary name
indexed by the number of states with strictly larger score. -/
theorem state_label_map_rank_of_injective {K : ℕ} (means : Fin K → Fin 6 → ℚ)
    (hinj : Function.Injective (goal_diff means)) (s : Fin K) :
    state_label_map means s =
      friendly_names.get? ((List.finRange K).countP
        (fun t => decide (goal_diff means s < goal_diff means t))) := by
  unfold state_label_map
  rw [rank_eq_countP_of_injective _ hinj]

theorem countP_add_countP_not (p : α → Bool) :
    ∀ l : List α, l.countP p + l.countP (fun a => !(p a)) = l.length := by
  intro l
  induction l with
  | nil => rfl
  | cons b t ih =>
    rw [List.countP_cons, List.countP_cons, List.length_cons]
    cases hb : p b <;> simp [hb] <;> omega

theorem countP_ne_finRange {K : ℕ} (s : Fin K) :
    (List.finRange K).countP (fun t => !(t == s)) = K - 1 := by
  have hlen : (List.finRange K).countP (fun t => t == s) +
      (List.finRange K).countP (fun t => !(t == s)) = K := by
    rw [countP_add_countP_not, List.length_finRange]
  have hcount : (List.finRange K).countP (fun t => t == s) = 1 := by
    have h := List.nodup_iff_count_eq_one.mp (List.nodup_finRange K) s
      (List.mem_finRange s)
    simpa [List.count] using h
  omega

/-! ## Claim theorems: the label resolver (C1, C2, C4) -/

/-- C1: for every fitted model with `K` states (scores pairwise distinct so
that the descending order is well-defined), the resolver assigns
`friendly_names[0]` ("Locked‑In") to the state with maximal
(mean GoalsFor − mean GoalsAgainst), the name at index `K-1` to the state with
minimal score, and in general the name at index `i` to the state with exactly
`i` states scoring strictly higher. -/
theorem c1_ranking_correct {K : ℕ} (means : Fin K → Fin 6 → ℚ)
    (hinj : Function.Injective (goal_diff means)) :
    (∀ s : Fin K,
       state_label_map means s =
         friendly_names.get? ((List.finRange K).countP
           (fun t => decide (goal_diff means s < goal_diff means t)))) ∧
    (∀ s : Fin K, (∀ t : Fin K, t ≠ s → goal_diff means t < goal_diff means s) →
       state_label_map means s = some "Locked‑In") ∧
    (∀ s : Fin K, (∀ t : Fin K, t ≠ s → goal_diff means s < goal_diff means t) →
       state_label_map means s = friendly_names.get? (K - 1)) := by
  refine ⟨state_label_map_rank_of_injective means hinj, ?_, ?_⟩
  · intro s hmax
    rw [state_label_map_rank_of_injective means hinj s]
    have hzero : (List.finRange K).countP
        (fun t => decide (goal_diff means s < goal_diff means t)) = 0 := by
      rw [List.countP_eq_zero]
      intro t _ hcontra
      rw [decide_eq_true_eq] at hcontra
      by_cases hts : t = s
      · subst hts; exact lt_irrefl _ hcontra
      · exact lt_irrefl _ (hcontra.trans (hmax t hts))
    rw [hzero]
    rfl
  · intro s hmin
    rw [state_label_map_rank_of_injective means hinj s]
    have hall : (List.finRange K).countP
        (fun t => decide (goal_diff means s < goal_diff means t)) =
        (List.finRange K).countP (fun t => !(t == s)) := by
      apply List.countP_congr
      intro t _
      simp only [decide_eq_true_eq, Bool.not_eq_true', beq_eq_false_iff_ne, ne_eq]
      constructor
      · intro h hts
        subst hts
        exact lt_irrefl _ h
      · intro hts
        exact hmin t hts
    rw [hall, countP_ne_finRange]

/-- Concrete strictly-ranked means for witnesses: state 0 has goal
difference 1, state 1 has 0. -/
def Mw1 : Fin 2 → Fin 6 → ℚ :=
  ![![1, 0, 0, 0, 0, 0], ![0, 0, 0, 0, 0, 0]]

theorem Mw1_goal_diff : goal_diff Mw1 = ![1, 0] := by
  funext s
  fin_cases s <;> simp [goal_diff, Mw1]

/-- Witness for C1 at a concrete fitted model: the strictly best-scoring state
receives "Locked‑In". -/
theorem c1_ranking_correct_witness :
    Function.Injective (goal_diff Mw1) ∧
    state_label_map Mw1 0 = some "Locked‑In" := by
  have hinj : Function.Injective (goal_diff Mw1) := by
    rw [Mw1_goal_diff]; decide
  refine ⟨hinj, ?_⟩
  refine (c1_ranking_correct Mw1 hinj).2.1 0 ?_
  intro t ht
  rw [Mw1_goal_diff]
  fin_cases t
  · exact absurd rfl ht
  · decide

/-- C2 (amended): the per-record labels are invariant under a permutation of
the internal state indices provided the `K` scores are pairwise distinct.
Permuting the model's states by `p` (state `p i` carries the old state `i`'s
mean vector, and every decoded index is mapped through `p`) leaves the label
sequence unchanged. -/
theorem c2_label_perm_invariant {K : ℕ} (means : Fin K → Fin 6 → ℚ)
    (hinj : Function.Injective (goal_diff means)) (p : Equiv.Perm (Fin K))
    (seq : List (Fin K)) :
    (seq.map p).map (state_label_map (fun s j => means (p.symm s) j)) =
      seq.map (state_label_map means) := by
  rw [List.map_map]
  apply List.map_congr_left
  intro s _
  show state_label_map (fun u j => means (p.symm u) j) (p s) = state_label_map means s
  have hg' : goal_diff (fun u j => means (p.symm u) j) =
      fun u => goal_diff means (p.symm u) := rfl
  have hinj' : Function.Injective (goal_diff (fun u j => means (p.symm u) j)) := by
    rw [hg']
    exact hinj.comp p.symm.injective
  rw [state_label_map_rank_of_injective _ hinj' (p s),
    state_label_map_rank_of_injective _ hinj s]
  congr 1
  have happ : ∀ t, goal_diff (fun u j => means (p.symm u) j) t =
      goal_diff means (p.symm t) := fun t => rfl
  have hps : goal_diff means (p.symm (p s)) = goal_diff means s := by
    rw [Equiv.symm_apply_apply]
  calc (List.finRange K).countP
        (fun t => decide (goal_diff (fun u j => means (p.symm u) j) (p s) <
          goal_diff (fun u j => means (p.symm u) j) t))
      = (List.finRange K).countP
          (fun t => decide (goal_diff means s < goal_diff means (p.symm t))) := by
        apply List.countP_congr
        intro t _
        rw [happ t, happ (p s), hps]
    _ = ((List.finRange K).map p.symm).countP
          (fun u => decide (goal_diff means s < goal_diff means u)) := by
        rw [List.countP_map]
        rfl
    _ = (List.finRange K).countP
          (fun u => decide (goal_diff means s < goal_diff means u)) :=
        (Equiv.Perm.map_finRange_perm p.symm).countP_eq _

/-- Concrete tied-score means for the tie-break results: both states have goal
difference 0 but distinct mean vectors (they differ in the ShotsFor column). -/
def Mtie : Fin 2 → Fin 6 → ℚ :=
  ![![0, 0, 0, 0, 0, 0], ![0, 0, 1, 0, 0, 0]]

theorem Mtie_goal_diff : goal_diff Mtie = ![0, 0] := by
  funext s
  fin_cases s <;> simp [goal_diff, Mtie]

theorem Mtie_goal_diff_swap :
    goal_diff (fun s j => Mtie ((Equiv.swap (0 : Fin 2) 1).symm s) j) = ![0, 0] := by
  funext u
  show goal_diff Mtie ((Equiv.swap (0 : Fin 2) 1).symm u) = ![0, 0] u
  rw [Mtie_goal_diff]
  fin_cases u <;> decide

/-- Counterexample to C2 as stated: with tied scores the index tie-break is
not permutation invariant.  Relabeling the two (distinct, equal-scoring)
states by the swap changes the record labeled by state 0 from "Improving" to
"Locked‑In". -/
theorem c2_counterexample :
    ¬ ((([0] : List (Fin 2)).map (Equiv.swap (0 : Fin 2) 1)).map
          (state_label_map (fun s j => Mtie ((Equiv.swap (0 : Fin 2) 1).symm s) j)) =
        ([0] : List (Fin 2)).map (state_label_map Mtie)) := by
  intro hcontra
  have e1 : state_label_map Mtie 0 = some "Improving" := by
    unfold state_label_map
    rw [Mtie_goal_diff]
    decide
  have e2 : state_label_map
      (fun s j => Mtie ((Equiv.swap (0 : Fin 2) 1).symm s) j)
      ((Equiv.swap (0 : Fin 2) 1) 0) = some "Locked‑In" := by
    unfold state_label_map
    rw [Mtie_goal_diff_swap]
    have h01 : (Equiv.swap (0 : Fin 2) 1) 0 = 1 := by decide
    rw [h01]
    decide
  simp only [List.map_cons, List.map_nil, List.cons.injEq, and_true] at hcontra
  rw [e1, e2] at hcontra
  exact absurd hcontra (by decide)

/-- Witness for C2 (amended) at a concrete model with distinct scores and the
swap permutation. -/
theorem c2_label_perm_invariant_witness :
    Function.Injective (goal_diff Mw1) ∧
    (([0, 1] : List (Fin 2)).map (Equiv.swap (0 : Fin 2) 1)).map
        (state_label_map (fun s j => Mw1 ((Equiv.swap (0 : Fin 2) 1).symm s) j)) =
      ([0, 1] : List (Fin 2)).map (state_label_map Mw1) := by
  have hinj : Function.Injective (goal_diff Mw1) := by
    rw [Mw1_goal_diff]; decide
  exact ⟨hinj, c2_label_perm_invariant Mw1 hinj (Equiv.swap 0 1) [0, 1]⟩

/-- C4 (amended): ties in (mean GoalsFor − mean GoalsAgainst) are broken by
original state index DESCENDING, not ascending: reversing the stable ascending
argsort places the tied state with the larger index first, so it receives the
earlier (higher-ranked) vocabulary name. -/
theorem c4_tiebreak_descending {K : ℕ} (means : Fin K → Fin 6 → ℚ)
    (s t : Fin K) (htie : goal_diff means s = goal_diff means t) (hlt : t < s) :
    posOf s (order (goal_diff means)) < posOf t (order (goal_diff means)) ∧
    state_label_map means s =
      friendly_names.get? (posOf s (order (goal_diff means))) ∧
    state_label_map means t =
      friendly_names.get? (posOf t (order (goal_diff means))) := by
  refine ⟨?_, rfl, rfl⟩
  set g := goal_diff means with hgdef
  rw [rank_eq_countP g s, rank_eq_countP g t]
  have hts : ascLexB g t s = true := by
    unfold ascLexB
    have : t.val ≤ s.val := le_of_lt hlt
    simp [htie.symm, this]
  apply countP_lt_countP s
  · simp
  · unfold ascLexB
    have hne : (s == t) = false := by
      simp only [beq_eq_false_iff_ne, ne_eq]
      intro hcontra
      subst hcontra
      exact lt_irrefl _ hlt
    have hsle : ¬ s.val ≤ t.val := not_le_of_lt hlt
    simp [hne, htie, hsle, lt_irrefl]
    exact le_of_lt hlt
  · intro u _ hu
    rw [Bool.and_eq_true] at hu
    rcases hu with ⟨hune, husc⟩
    rw [Bool.and_eq_true]
    constructor
    · rw [Bool.not_eq_true', beq_eq_false_iff_ne, ne_eq]
      intro hcontra
      subst hcontra
      have : ascLexB g s u = true := husc
      unfold ascLexB at this
      simp only [Bool.or_eq_true, Bool.and_eq_true, decide_eq_true_eq] at this
      rcases this with h | ⟨_, hle⟩
      · rw [htie] at h
        exact lt_irrefl _ h
      · exact absurd hle (not_le_of_lt hlt)
    · exact ascLexB_trans g t s u hts husc
  · exact List.mem_finRange s

/-- Counterexample to C4 as stated: with tied scores the state with the
SMALLER index receives the later vocabulary name ("Improving"), and the larger
index receives "Locked‑In" — the opposite of the claimed ascending tie-break. -/
theorem c4_counterexample :
    goal_diff Mtie 0 = goal_diff Mtie 1 ∧
    state_label_map Mtie 0 = some "Improving" ∧
    state_label_map Mtie 1 = some "Locked‑In" := by
  refine ⟨?_, ?_, ?_⟩
  · rw [Mtie_goal_diff]
    decide
  · unfold state_label_map
    rw [Mtie_goal_diff]
    decide
  · unfold state_label_map
    rw [Mtie_goal_diff]
    decide

/-- Witness for C4 (amended) at the concrete tied model: state 1 is ranked
strictly before state 0. -/
theorem c4_tiebreak_descending_witness :
    goal_diff Mtie 1 = goal_diff Mtie 0 ∧ (0 : Fin 2) < 1 ∧
    posOf (1 : Fin 2) (order (goal_diff Mtie)) <
      posOf (0 : Fin 2) (order (goal_diff Mtie)) := by
  have htie : goal_diff Mtie 1 = goal_diff Mtie 0 := by
    rw [Mtie_goal_diff]
    decide
  exact ⟨htie, by decide,
    (c4_tiebreak_descending Mtie 1 0 htie (by decide)).1⟩

/-! ## Claim theorems: vocabulary bounds and bijectivity (C8, C10) -/

/-- The five vocabulary names are pairwise distinct: equal lookups below index
5 force equal indices. -/
theorem friendly_names_get_inj :
    ∀ i < 5, ∀ j < 5,
      friendly_names.get? i = friendly_names.get? j → i = j := by
  decide

/-- C8: for every `2 ≤ K ≤ 5` the Label Resolver uses exactly the first `K`
vocabulary entries (every state's label is one of the first `K` names, and
every one of the first `K` names is used); for `K = 6` — which exceeds the
vocabulary — label resolution fails (`none`, the uncaught `IndexError` of
`friendly_names[5]`, surfaced as the spec's `ConfigError`). -/
theorem c8_vocabulary_bounds :
    (∀ (K : ℕ) (means : Fin K → Fin 6 → ℚ), 2 ≤ K → K ≤ 5 →
      (∀ s : Fin K, ∃ i, i < K ∧ state_label_map means s = friendly_names.get? i ∧
        (friendly_names.get? i).isSome) ∧
      (∀ i, i < K → ∃ s : Fin K, state_label_map means s = friendly_names.get? i)) ∧
    (∀ means : Fin 6 → Fin 6 → ℚ, ∃ s : Fin 6, state_label_map means s = none) := by
  constructor
  · intro K means _ hK5
    constructor
    · intro s
      refine ⟨posOf s (order (goal_diff means)), rank_lt_K _ s, rfl, ?_⟩
      have hlt : posOf s (order (goal_diff means)) < friendly_names.length := by
        have h5 : friendly_names.length = 5 := rfl
        rw [h5]
        exact lt_of_lt_of_le (rank_lt_K (goal_diff means) s) hK5
      rw [List.get?_eq_get hlt]
      rfl
    · intro i hi
      have hilt : i < (order (goal_diff means)).length := by
        rw [order_length]; exact hi
      refine ⟨(order (goal_diff means)).get ⟨i, hilt⟩, ?_⟩
      unfold state_label_map
      rw [posOf_get_of_nodup (order (goal_diff means)) (order_nodup _) ⟨i, hilt⟩]
  · intro means
    have hlt : (5 : ℕ) < (order (goal_diff means)).length := by
      rw [order_length]; omega
    refine ⟨(order (goal_diff means)).get ⟨5, hlt⟩, ?_⟩
    unfold state_label_map
    rw [posOf_get_of_nodup (order (goal_diff means)) (order_nodup _) ⟨5, hlt⟩]
    rfl

/-- Witness for C8: at `K = 2` both used labels are among the first two
vocabulary entries, and at `K = 6` (a hypothetical model with six states) some
state has no label. -/
theorem c8_vocabulary_bounds_witness :
    ((2 : ℕ) ≤ 2 ∧ (2 : ℕ) ≤ 5) ∧
    (∀ s : Fin 2, ∃ i, i < 2 ∧ state_label_map Mw1 s = friendly_names.get? i ∧
      (friendly_names.get? i).isSome) ∧
    (∃ s : Fin 6, state_label_map (fun _ _ => (0 : ℚ)) s = none) :=
  ⟨⟨by decide, by decide⟩,
    (c8_vocabulary_bounds.1 2 Mw1 (by decide) (by decide)).1,
    c8_vocabulary_bounds.2 (fun _ _ => 0)⟩

/-- C10: for every fitted model with `K ≤ 5` states, the state-to-label map is
a bijection from the decoded state indices onto the first `K` vocabulary
names: every state has exactly one label, distinct states have distinct
labels, every one of the first `K` names is used, and the label's coaching
note lookup always succeeds with nonempty text. -/
theorem c10_label_bijection {K : ℕ} (means : Fin K → Fin 6 → ℚ) (hK : K ≤ 5) :
    (∀ s : Fin K, ∃ l, state_label_map means s = some l ∧
       l ∈ friendly_names.take K ∧
       ∃ note, descriptions.lookup l = some note ∧ note ≠ "") ∧
    (∀ s t : Fin K, state_label_map means s = state_label_map means t → s = t) ∧
    (∀ l ∈ friendly_names.take K, ∃ s : Fin K, state_label_map means s = some l) := by
  refine ⟨?_, ?_, ?_⟩
  · intro s
    rcases state_label_map_eq_some means hK s with ⟨l, hl⟩
    refine ⟨l, hl, ?_, descriptions_complete l (state_label_map_mem means s hl)⟩
    have hrank : posOf s (order (goal_diff means)) < K := rank_lt_K _ s
    have htake : (friendly_names.take K).get? (posOf s (order (goal_diff means))) =
        friendly_names.get? (posOf s (order (goal_diff means))) :=
      List.get?_take hrank
    apply List.get?_mem (n := posOf s (order (goal_diff means)))
    rw [htake, ← hl]
    rfl
  · intro s t hst
    rcases state_label_map_eq_some means hK s with ⟨l, hl⟩
    have hranks : posOf s (order (goal_diff means)) = posOf t (order (goal_diff means)) := by
      apply friendly_names_get_inj
      · exact lt_of_lt_of_le (rank_lt_K _ s) hK
      · exact lt_of_lt_of_le (rank_lt_K _ t) hK
      · exact hst
    exact posOf_inj_of_mem (order (goal_diff means)) (mem_order _ s) (mem_order _ t) hranks
  · intro l hl
    rcases List.mem_iff_get?.mp hl with ⟨i, hi⟩
    have hiK : i < K := by
      have hlen : i < (friendly_names.take K).length := by
        by_contra hcontra
        rw [List.get?_eq_none.mpr (le_of_not_lt hcontra)] at hi
        cases hi
      have : (friendly_names.take K).length ≤ K := by
        rw [List.length_take]
        exact min_le_left _ _
      omega
    have hilt : i < (order (goal_diff means)).length := by
      rw [order_length]; exact hiK
    refine ⟨(order (goal_diff means)).get ⟨i, hilt⟩, ?_⟩
    unfold state_label_map
    rw [posOf_get_of_nodup (order (goal_diff means)) (order_nodup _) ⟨i, hilt⟩]
    rw [← List.get?_take hiK]
    exact hi

/-- Constant-mean three-state model for the C10 witness (ties allowed: the
bijection holds regardless). -/
def M3 : Fin 3 → Fin 6 → ℚ := fun _ _ => 0

/-- Witness for C10 at a concrete three-state model: labels are injective over
the states. -/
theorem c10_label_bijection_witness :
    (3 : ℕ) ≤ 5 ∧
    (∀ s t : Fin 3, state_label_map M3 s = state_label_map M3 t → s = t) :=
  ⟨by decide, (c10_label_bijection M3 (by decide)).2.1⟩

/-! ## Claim theorems: pipeline determinism, failure and order invariance
(C3, C7, C9) -/

/-- C3: the pipeline is deterministic: two independent runs on equal inputs
with the same seed (42) and the same iteration cap (100) produce identical
annotated outputs — in particular identical per-record state and label
sequences.  Every stage of the embedded pipeline, including the seeded fit, is
a pure function of its arguments. -/
theorem c3_deterministic (rows rows' : List GameRecord) (K K' : ℕ)
    (hrows : rows = rows') (hK : K = K') :
    runPipeline rows K 42 100 = runPipeline rows' K' 42 100 := by
  subst hrows
  subst hK
  rfl

/-- Concrete games for pipeline witnesses. -/
def r1 : GameRecord :=
  { gameDate := 1, opponent := "Eagles", venue := "Home"
  , goalsFor := 3, goalsAgainst := 1, shotsFor := 30, shotsAgainst := 20
  , penaltyMinutes := 4, faceoffWinPct := 55 }

/-- Second concrete game, later date, different stats. -/
def r2 : GameRecord :=
  { gameDate := 2, opponent := "Hawks", venue := "Away"
  , goalsFor := 1, goalsAgainst := 4, shotsFor := 22, shotsAgainst := 31
  , penaltyMinutes := 10, faceoffWinPct := 48 }

/-- Witness for C3 at a concrete two-game upload with K = 2. -/
theorem c3_deterministic_witness :
    [r1, r2] = [r1, r2] ∧ (2 : ℕ) = 2 ∧
    runPipeline [r1, r2] 2 42 100 = runPipeline [r1, r2] 2 42 100 :=
  ⟨rfl, rfl, c3_deterministic [r1, r2] [r1, r2] 2 2 rfl rfl⟩

/-- C7: a GameSequence shorter than `K` fails fitting with `FitError` and the
pipeline aborts: the run returns the error and no partial or best-effort
state assignment (the success type is not produced at all). -/
theorem c7_short_sequence_aborts (rows : List GameRecord) (K seed nIter : ℕ)
    (hK : 0 < K) (hshort : rows.length < K) :
    runPipeline rows K seed nIter = .error .fitError := by
  unfold runPipeline
  rw [dif_pos hK]
  have hXlen : (fitTransform ((sortByDate rows).map featVec)).length = rows.length := by
    rw [fitTransform_length, List.length_map, sortByDate_length]
  have hfit : fitHMM K (fitTransform ((sortByDate rows).map featVec)) seed nIter =
      .error .fitError := by
    unfold fitHMM
    rw [if_pos]
    rw [hXlen]
    exact hshort
  simp only [hfit]

/-- Witness for C7: one game, two requested states. -/
theorem c7_short_sequence_aborts_witness :
    (0 : ℕ) < 2 ∧ ([r1] : List GameRecord).length < 2 ∧
    runPipeline [r1] 2 42 100 = .error .fitError :=
  ⟨by decide, by decide,
    c7_short_sequence_aborts [r1] 2 42 100 (by decide) (by decide)⟩

/-- Two lists that are permutations of each other and both strictly sorted by
the same key are equal. -/
theorem eq_of_perm_of_pairwise_lt (d : GameRecord → Int) :
    ∀ l₁ l₂ : List GameRecord, l₁.Perm l₂ →
      l₁.Pairwise (fun a b => d a < d b) →
      l₂.Pairwise (fun a b => d a < d b) → l₁ = l₂ := by
  intro l₁
  induction l₁ with
  | nil =>
    intro l₂ hp _ _
    exact List.Perm.nil_eq hp
  | cons a t ih =>
    intro l₂ hp hp1 hp2
    match l₂ with
    | [] =>
      have := hp.length_eq
      simp at this
    | b :: t₂ =>
      have hab : a = b := by
        by_contra hne
        have hbt : b ∈ t := by
          have hbmem : b ∈ a :: t := hp.mem_iff.mpr (List.mem_cons_self b t₂)
          rcases List.mem_cons.mp hbmem with h | h
          · exact absurd h.symm hne
          · exact h
        have hat : a ∈ t₂ := by
          have hamem : a ∈ b :: t₂ := hp.mem_iff.mp (List.mem_cons_self a t)
          rcases List.mem_cons.mp hamem with h | h
          · exact absurd h hne
          · exact h
        have h1 : d a < d b := (List.pairwise_cons.mp hp1).1 b hbt
        have h2 : d b < d a := (List.pairwise_cons.mp hp2).1 a hat
        exact absurd (h1.trans h2) (lt_irrefl _)
      subst hab
      have ht : t.Perm t₂ := hp.cons_inv
      rw [ih t₂ ht (List.pairwise_cons.mp hp1).2 (List.pairwise_cons.mp hp2).2]

/-- A date-sorted list with duplicate-free dates is strictly sorted. -/
theorem sortByDate_pairwise_lt (rows : List GameRecord)
    (hnd : (rows.map (fun r => r.gameDate)).Nodup) :
    (sortByDate rows).Pairwise (fun a b => a.gameDate < b.gameDate) := by
  have hle : (sortByDate rows).Pairwise
      (fun a b => decide (a.gameDate ≤ b.gameDate) = true) := by
    apply pairwise_insSort
    · intro a b
      rcases le_total a.gameDate b.gameDate with h | h
      · left; simpa using h
      · right; simpa using h
    · intro a b c hab hbc
      rw [decide_eq_true_eq] at *
      exact hab.trans hbc
  have hle' : (sortByDate rows).Pairwise (fun a b => a.gameDate ≤ b.gameDate) :=
    hle.imp (fun h => by simpa using h)
  have hnd' : ((sortByDate rows).map (fun r => r.gameDate)).Nodup := by
    have hpm : ((sortByDate rows).map (fun r => r.gameDate)).Perm
        (rows.map (fun r => r.gameDate)) := (insSort_perm _ rows).map _
    exact hpm.nodup_iff.mpr hnd
  have hne : (sortByDate rows).Pairwise (fun a b => a.gameDate ≠ b.gameDate) :=
    List.pairwise_map.mp hnd'
  exact (hle'.and hne).imp (fun h => lt_of_le_of_ne h.1 h.2)

/-- Sorting by a duplicate-free date key is invariant under permutations of
the input rows. -/
theorem sortByDate_eq_of_perm (rows rows' : List GameRecord)
    (hperm : rows.Perm rows')
    (hnd : (rows.map (fun r => r.gameDate)).Nodup) :
    sortByDate rows = sortByDate rows' := by
  have hnd' : (rows'.map (fun r => r.gameDate)).Nodup :=
    (hperm.map (fun r => r.gameDate)).nodup_iff.mp hnd
  apply eq_of_perm_of_pairwise_lt (fun r => r.gameDate)
  · exact (insSort_perm _ rows).trans (hperm.trans (insSort_perm _ rows').symm)
  · exact sortByDate_pairwise_lt rows hnd
  · exact sortByDate_pairwise_lt rows' hnd'

/-- C9: permuting the input rows before processing does not change the
pipeline output — in particular the per-date StateLabel assignment — when the
game dates are pairwise distinct (the situation in which a per-date assignment
is well defined): rows are sorted ascending by GameDate before normalization
and fitting, and sorting a permuted list by a duplicate-free key recovers the
same sorted table, after which every stage is a function of that table. -/
theorem c9_order_invariance (rows rows' : List GameRecord) (K seed nIter : ℕ)
    (hperm : rows'.Perm rows)
    (hnd : (rows.map (fun r => r.gameDate)).Nodup) :
    runPipeline rows' K seed nIter = runPipeline rows K seed nIter := by
  have hsort : sortByDate rows' = sortByDate rows :=
    sortByDate_eq_of_perm rows' rows hperm
      ((hperm.map (fun r => r.gameDate)).nodup_iff.mpr hnd)
  unfold runPipeline
  rw [hsort]

/-- Witness for C9: swapping the two uploaded games does not change the
pipeline result. -/
theorem c9_order_invariance_witness :
    ([r2, r1] : List GameRecord).Perm [r1, r2] ∧
    (([r1, r2] : List GameRecord).map (fun r => r.gameDate)).Nodup ∧
    runPipeline [r2, r1] 2 42 100 = runPipeline [r1, r2] 2 42 100 := by
  have hperm : ([r2, r1] : List GameRecord).Perm [r1, r2] := List.Perm.swap r1 r2 []
  have hnd : (([r1, r2] : List GameRecord).map (fun r => r.gameDate)).Nodup := by
    decide
  exact ⟨hperm, hnd, c9_order_invariance [r1, r2] [r2, r1] 2 42 100 hperm hnd⟩

/-! ## Claim theorems: the normalizer and zero variance (C6) -/

theorem all_zero_of_sum_eq_zero :
    ∀ l : List ℚ, (∀ x ∈ l, 0 ≤ x) → l.sum = 0 → ∀ x ∈ l, x = 0 := by
  intro l
  induction l with
  | nil => intro _ _ x hx; cases hx
  | cons b t ih =>
    intro hnn hsum x hx
    rw [List.sum_cons] at hsum
    have hb : 0 ≤ b := hnn b (List.mem_cons_self b t)
    have ht : 0 ≤ t.sum :=
      List.sum_nonneg (fun y hy => hnn y (List.mem_cons_of_mem b hy))
    have hb0 : b = 0 := by linarith
    have hts : t.sum = 0 := by linarith
    rcases List.mem_cons.mp hx with rfl | hx'
    · exact hb0
    · exact ih (fun y hy => hnn y (List.mem_cons_of_mem b hy)) hts x hx'

/-- A zero-variance column is constant: every entry equals the column mean. -/
theorem eq_colMean_of_colVar_zero (xs : List ℚ) (hv : colVar xs = 0) :
    ∀ x ∈ xs, x = colMean xs := by
  intro x hx
  have hne : xs ≠ [] := by
    intro hcontra
    subst hcontra
    cases hx
  have hpos : 0 < xs.length := List.length_pos.mpr hne
  have hn : ((xs.length : ℚ)) ≠ 0 := Nat.cast_ne_zero.mpr (by omega)
  have hsum : (xs.map (fun y => (y - colMean xs) ^ 2)).sum = 0 := by
    unfold colVar at hv
    rcases div_eq_zero_iff.mp hv with h | h
    · exact h
    · exact absurd h hn
  have hsq : (x - colMean xs) ^ 2 = 0 := by
    refine all_zero_of_sum_eq_zero _ ?_ hsum _ ?_
    · intro y hy
      rcases List.mem_map.mp hy with ⟨z, _, rfl⟩
      exact sq_nonneg _
    · exact List.mem_map.mpr ⟨x, hx, rfl⟩
  have := pow_eq_zero_iff (n := 2) (by omega) |>.mp hsq
  linarith [this]

/-- C6 (amended): the Feature Normalizer (`StandardScaler.fit_transform`) does
NOT fail on a zero-variance column — no `InvalidInputError` exists in the
code, and the pipeline never produces one.  Instead the zero-variance column
is silently standardized to exact zeros (`StandardScaler` replaces a zero
scale by 1 before dividing), so no NaN or Inf is produced either: every entry
of such a column is the well-defined value `⟨0, 0⟩`, i.e. 0. -/
theorem c6_zero_variance_no_error :
    (∀ (rows : List GameRecord) (K seed nIter : ℕ),
        runPipeline rows K seed nIter ≠ .error .invalidInputError) ∧
    (∀ (cols : List (Fin 6 → ℚ)) (j : Fin 6),
        colVar (cols.map (fun r => r j)) = 0 →
        ∀ row ∈ fitTransform cols, row j = ⟨0, 0⟩) := by
  constructor
  · intro rows K seed nIter
    unfold runPipeline
    by_cases hK : 0 < K
    · rw [dif_pos hK]
      cases hfit : fitHMM K (fitTransform ((sortByDate rows).map featVec)) seed nIter with
      | error err =>
        rcases fitHMM_error_eq _ _ _ hfit with ⟨herr, _⟩
        subst herr
        intro hcontra
        exact PipelineError.noConfusion (Except.error.inj hcontra)
      | ok m =>
        dsimp only
        by_cases h5 : 5 < K
        · rw [if_pos h5]
          intro hcontra
          exact PipelineError.noConfusion (Except.error.inj hcontra)
        · rw [if_neg h5]
          cases hmap : mapOpt (fun s => state_label_map m.means s)
              (viterbi m.start m.trans hK
                ((fitTransform ((sortByDate rows).map featVec)).map (emitScore m))) with
          | none =>
            dsimp only
            intro hcontra
            exact PipelineError.noConfusion (Except.error.inj hcontra)
          | some labels =>
            dsimp only
            cases hnotes : mapOpt (fun l => descriptions.lookup l) labels with
            | none =>
              dsimp only
              intro hcontra
              exact PipelineError.noConfusion (Except.error.inj hcontra)
            | some notes =>
              dsimp only
              intro hcontra
              exact Except.noConfusion hcontra
    · rw [dif_neg hK]
      intro hcontra
      exact PipelineError.noConfusion (Except.error.inj hcontra)
  · intro cols j hv row hrow
    rcases List.mem_map.mp hrow with ⟨r, hr, rfl⟩
    have hmem : r j ∈ cols.map (fun r' => r' j) := List.mem_map.mpr ⟨r, hr, rfl⟩
    have hmean : r j = colMean (cols.map (fun r' => r' j)) :=
      eq_colMean_of_colVar_zero _ hv (r j) hmem
    simp only [StdVal.mk.injEq]
    exact ⟨by rw [← hmean]; ring, hv⟩

/-- First game with the zero-variance GoalsFor column. -/
def rz1 : GameRecord :=
  { gameDate := 1, opponent := "Eagles", venue := "Home"
  , goalsFor := 3, goalsAgainst := 1, shotsFor := 30, shotsAgainst := 20
  , penaltyMinutes := 4, faceoffWinPct := 55 }

/-- Second game with the same GoalsFor value (3), everything else different. -/
def rz2 : GameRecord :=
  { gameDate := 2, opponent := "Hawks", venue := "Away"
  , goalsFor := 3, goalsAgainst := 4, shotsFor := 22, shotsAgainst := 31
  , penaltyMinutes := 10, faceoffWinPct := 48 }

theorem colVar_three_three : colVar ([3, 3] : List ℚ) = 0 := by
  unfold colVar colMean
  simp only [List.map_cons, List.map_nil, List.sum_cons, List.sum_nil,
    List.length_cons, List.length_nil]
  norm_num

/-- Counterexample to C6 as stated: an upload whose GoalsFor column has zero
variance is processed to completion — the pipeline returns a successful
result, not an `InvalidInputError` (no such failure path exists). -/
theorem c6_counterexample :
    colVar (((sortByDate [rz1, rz2]).map featVec).map (fun r => r 0)) = 0 ∧
    (∃ out, runPipeline [rz1, rz2] 2 42 100 = .ok out) ∧
    runPipeline [rz1, rz2] 2 42 100 ≠ .error .invalidInputError := by
  have hcol : ((sortByDate [rz1, rz2]).map featVec).map (fun r => r 0) =
      ([3, 3] : List ℚ) := by decide
  refine ⟨?_, ?_, ?_⟩
  · rw [hcol]
    exact colVar_three_three
  · rcases runPipeline_ok [rz1, rz2] 2 42 100 (by decide) (by decide) (by decide)
      with ⟨out, hout, _⟩
    exact ⟨out, hout⟩
  · rcases runPipeline_ok [rz1, rz2] 2 42 100 (by decide) (by decide) (by decide)
      with ⟨out, hout, _⟩
    rw [hout]
    intro hcontra
    exact Except.noConfusion hcontra

/-- Concrete feature matrix with a constant first column for the C6 witness. -/
def colsW : List (Fin 6 → ℚ) :=
  [![3, 1, 30, 20, 4, 55], ![3, 4, 22, 31, 10, 48]]

/-- Witness for C6 (amended): on the concrete constant-GoalsFor matrix the
zero-variance hypothesis holds and every standardized entry of that column is
the exact zero value. -/
theorem c6_zero_variance_no_error_witness :
    colVar (colsW.map (fun r => r 0)) = 0 ∧
    (∀ row ∈ fitTransform colsW, row 0 = ⟨0, 0⟩) := by
  have hmap : colsW.map (fun r => r 0) = ([3, 3] : List ℚ) := by decide
  have hv : colVar (colsW.map (fun r => r 0)) = 0 := by
    rw [hmap]
    exact colVar_three_three
  exact ⟨hv, c6_zero_variance_no_error.2 colsW 0 hv⟩

/-! ## Witness for C5 -/

/-- Uniform initial scores for the two-state decoder witness. -/
def pi2 : Fin 2 → ℚ := ![1, 1]

/-- Uniform transition scores for the two-state decoder witness. -/
def A2 : Fin 2 → Fin 2 → ℚ := ![![1, 1], ![1, 1]]

/-- Two emission-likelihood frames for the decoder witness. -/
def es2 : List (Fin 2 → ℚ) := [![2, 1], ![1, 3]]

/-- Witness for C5 at a concrete two-state, two-frame instance with
nonnegative scores. -/
theorem c5_viterbi_decoder_witness :
    (0 : ℕ) < 2 ∧
    (∀ a b : Fin 2, (0 : ℚ) ≤ A2 a b) ∧
    (∀ e ∈ es2, ∀ s : Fin 2, (0 : ℚ) ≤ e s) ∧
    ((viterbi pi2 A2 (by decide) es2).length = es2.length ∧
      ∀ p : List (Fin 2), p.length = es2.length →
        pathScore pi2 A2 es2 p ≤ pathScore pi2 A2 es2 (viterbi pi2 A2 (by decide) es2)) :=
  ⟨by decide, by decide, by decide,
    c5_viterbi_decoder pi2 A2 (by decide) es2 (by decide) (by decide)⟩

end HockeyHMM
